import Mathlib

/-!
Verification of the DTW module (`pyts/metrics/dtw.py`).

Shallow embedding conventions:
* real numbers are modelled by `ℚ`; the float `inf` used by the code is
  modelled by `⊤` in `WithTop ℚ`;
* an `n × n` matrix is a function `ℕ → ℕ → WithTop ℚ` together with the
  size `n` carried separately (entries outside the `n × n` square are
  irrelevant and the theorems restrict indices accordingly);
* the imperative loops of the code are transliterated as left folds over
  the loop ranges (`forRange`), writing single cells with `mupd`;
* the final `sqrt` applied by the variants when the distance is `'square'`
  is irrational over `ℚ`, so the returned distance is represented
  symbolically: `FinalDist.sqrted v` denotes `√v` and `FinalDist.plain v`
  denotes `v` (the square root is injective and monotone on `[0, ∞]`, so
  this representation preserves equality and order of results computed
  with one and the same distance function).
-/

namespace PytsDtw

/-- Matrices of extended rationals (`⊤` models the float `inf`). -/
abbrev Mat : Type := ℕ → ℕ → WithTop ℚ

/-- A constraint region: per-column starting (included) and ending
(excluded) row indices, as in the code's `region[0]` / `region[1]`. -/
abbrev Region : Type := (ℕ → ℕ) × (ℕ → ℕ)

/-- Two-argument minimum, written out so that it evaluates by kernel
reduction. -/
def wmin (a b : WithTop ℚ) : WithTop ℚ := if a ≤ b then a else b

theorem wmin_eq_min (a b : WithTop ℚ) : wmin a b = min a b :=
  (min_def a b).symm

/-- Python's `min(a, b, c)` on floats with `inf`. -/
def min3 (a b c : WithTop ℚ) : WithTop ℚ := wmin a (wmin b c)

theorem min3_eq (a b c : WithTop ℚ) : min3 a b c = min a (min b c) := by
  rw [min3, wmin_eq_min, wmin_eq_min]

/-- Single-cell matrix write `M[i, j] = v`. -/
def mupd (M : Mat) (i j : ℕ) (v : WithTop ℚ) : Mat :=
  fun a b => if a = i ∧ b = j then v else M a b

/-- `forRange f M s k` runs `for t in range(s, s + k): M = f M t`. -/
def forRange {α : Type} (f : α → ℕ → α) (M : α) (s : ℕ) : ℕ → α
  | 0 => M
  | k + 1 => f (forRange f M s k) (s + k)

theorem forRange_ind {α : Type} (f : α → ℕ → α) (P : ℕ → α → Prop) (s : ℕ)
    (M : α) (k : ℕ) (h0 : P s M)
    (hstep : ∀ m N, s ≤ m → m < s + k → P m N → P (m + 1) (f N m)) :
    P (s + k) (forRange f M s k) := by
  induction k with
  | zero => simpa using h0
  | succ k ih =>
      have hk := ih (fun m N hm hm' hp => hstep m N hm (by omega) hp)
      have h2 := hstep (s + k) _ (by omega) (by omega) hk
      simpa [forRange, Nat.add_assoc] using h2

/-- The distance argument of the code: `'square'`, `'absolute'` or a
custom callable. -/
inductive Dist where
  | square
  | absolute
  | custom (f : ℚ → ℚ → ℚ)

/-- `_square` / `_absolute` / a custom callable, applied to two scalars. -/
def applyDist : Dist → ℚ → ℚ → ℚ
  | Dist.square, a, b => (a - b) ^ 2
  | Dist.absolute, a, b => |a - b|
  | Dist.custom f, a, b => f a b

/-- `_cost_matrix_no_region`: dense pointwise distances. -/
def cost_matrix_no_region (x y : ℕ → ℚ) (d : Dist) : Mat :=
  fun i j => (applyDist d (x i) (y j) : ℚ)

/-- `_cost_matrix_region`: the loop writes `cost[i, j]` exactly for
`region[0, j] ≤ i < region[1, j]`; every other entry keeps the initial
`inf`. -/
def cost_matrix_region (x y : ℕ → ℚ) (d : Dist) (r : Region) : Mat :=
  fun i j => if r.1 j ≤ i ∧ i < r.2 j then (applyDist d (x i) (y j) : ℚ) else ⊤

/-- Public `cost_matrix` (shape validation is implicit in the functional
representation; the probe call on a custom callable always succeeds over
`ℚ`). -/
def cost_matrix (x y : ℕ → ℚ) (d : Dist) : Option Region → Mat
  | none => cost_matrix_no_region x y d
  | some r => cost_matrix_region x y d r

/-- Cumulative sum along row `0`: `np.cumsum(cost[0, 0:j+1])` last entry. -/
def rowSum (cost : Mat) : ℕ → WithTop ℚ
  | 0 => cost 0 0
  | j + 1 => rowSum cost j + cost 0 (j + 1)

/-- Cumulative sum along column `0`. -/
def colSum (cost : Mat) : ℕ → WithTop ℚ
  | 0 => cost 0 0
  | i + 1 => colSum cost i + cost (i + 1) 0

/-- State of `_accumulated_cost_matrix_no_region` after the two base
cumulative-sum assignments (`acc[0] = cumsum(cost[0])`, then
`acc[:, 0] = cumsum(cost[:, 0])`, the latter overwriting `acc[0, 0]` with
the same value `cost[0, 0]`); unwritten entries of the `np.empty` buffer
are represented by `⊤` (they are never read before being written). -/
def accBaseNR (cost : Mat) : Mat :=
  fun i j => if j = 0 then colSum cost i else if i = 0 then rowSum cost j else ⊤

/-- Loop body of `_accumulated_cost_matrix_no_region`. -/
def accStepNR (cost : Mat) (M : Mat) (i j : ℕ) : Mat :=
  mupd M i j
    (cost i j + min3 (M (i - 1) (j - 1)) (M (i - 1) j) (M i (j - 1)))

/-- `_accumulated_cost_matrix_no_region`: base cumulative sums, then
`for j in range(1, n): for i in range(1, n): ...`. -/
def accumulated_cost_matrix_no_region (n : ℕ) (cost : Mat) : Mat :=
  forRange (fun M j => forRange (fun N i => accStepNR cost N i j) M 1 (n - 1))
    (accBaseNR cost) 1 (n - 1)

/-- State of `_accumulated_cost_matrix_region` after
`acc = ones * inf; acc[0, 0:hi0] = cumsum(cost[0, 0:hi0]);
acc[0:hi0, 0] = cumsum(cost[0:hi0, 0])` (the second assignment overwrites
`acc[0, 0]` with the same value when `hi0 > 0`). -/
def accBaseR (cost : Mat) (hi0 : ℕ) : Mat :=
  fun i j =>
    if j = 0 ∧ i < hi0 then colSum cost i
    else if i = 0 ∧ j < hi0 then rowSum cost j
    else ⊤

/-- Python index `i - 1` of an axis of length `n`, for `0 ≤ i < n`:
`-1` wraps around to `n - 1`. -/
def pyPred (n i : ℕ) : ℕ := if i = 0 then n - 1 else i - 1

/-- Loop body of `_accumulated_cost_matrix_region`; the reads
`acc[i - 1][...]` use Python/NumPy negative-index wraparound when
`i = 0`. -/
def accStepR (n : ℕ) (cost : Mat) (M : Mat) (i j : ℕ) : Mat :=
  mupd M i j
    (cost i j +
      min3 (M (pyPred n i) (j - 1)) (M (pyPred n i) j) (M i (j - 1)))

/-- `_accumulated_cost_matrix_region`: base fills bounded by
`region[1, 0]`, then `for j in range(1, n): for i in range(region[0, j],
region[1, j]): ...`. -/
def accumulated_cost_matrix_region (n : ℕ) (cost : Mat) (r : Region) : Mat :=
  forRange
    (fun M j => forRange (fun N i => accStepR n cost N i j) M (r.1 j) (r.2 j - r.1 j))
    (accBaseR cost (r.2 0)) 1 (n - 1)

/-- Public `accumulated_cost_matrix`. -/
def accumulated_cost_matrix (n : ℕ) (cost : Mat) : Option Region → Mat
  | none => accumulated_cost_matrix_no_region n cost
  | some r => accumulated_cost_matrix_region n cost r

/-- Closed-form recursion satisfied by the dense accumulated cost matrix
(the textbook DTW recurrence); proved equal to the fold
`accumulated_cost_matrix_no_region` below. -/
def accNR (cost : Mat) : ℕ → ℕ → WithTop ℚ
  | i, 0 => colSum cost i
  | 0, j + 1 => rowSum cost (j + 1)
  | i + 1, j + 1 =>
      cost (i + 1) (j + 1) +
        min3 (accNR cost i j) (accNR cost i (j + 1)) (accNR cost (i + 1) j)
termination_by i j => (i, j)

theorem accBaseNR_eq_accNR (cost : Mat) :
    ∀ i j, i = 0 ∨ j = 0 → accBaseNR cost i j = accNR cost i j := by
  intro i j h
  rcases h with h | h
  · subst h
    cases j with
    | zero => simp [accBaseNR, accNR]
    | succ j => simp [accBaseNR, accNR]
  · subst h
    simp [accBaseNR, accNR]

/-- The dense fold computes exactly the closed DTW recurrence on the
`n × n` square: every cell is written once and each write only reads
already-final neighbour values. -/
theorem acc_no_region_eq (n : ℕ) (cost : Mat) :
    ∀ i j, i < n → j < n →
      accumulated_cost_matrix_no_region n cost i j = accNR cost i j := by
  have hfin :
      (fun (J : ℕ) (M : Mat) =>
          (∀ a b, a = 0 ∨ b = 0 → M a b = accNR cost a b) ∧
          (∀ a b, 1 ≤ a → a < n → 1 ≤ b → b < J → M a b = accNR cost a b))
        (1 + (n - 1)) (accumulated_cost_matrix_no_region n cost) := by
    unfold accumulated_cost_matrix_no_region
    refine forRange_ind
      (fun M j => forRange (fun N i => accStepNR cost N i j) M 1 (n - 1))
      (fun J M =>
        (∀ a b, a = 0 ∨ b = 0 → M a b = accNR cost a b) ∧
        (∀ a b, 1 ≤ a → a < n → 1 ≤ b → b < J → M a b = accNR cost a b))
      1 (accBaseNR cost) (n - 1) ?_ ?_
    · refine ⟨accBaseNR_eq_accNR cost, ?_⟩
      intro a b _ _ hb hbJ
      omega
    · intro m N hm _ hPm
      obtain ⟨m', rfl⟩ : ∃ m', m = m' + 1 := ⟨m - 1, by omega⟩
      have hinner :
          (fun (I : ℕ) (M : Mat) =>
              (∀ a b, a = 0 ∨ b = 0 → M a b = accNR cost a b) ∧
              (∀ a b, 1 ≤ a → a < n → 1 ≤ b → b < m' + 1 →
                M a b = accNR cost a b) ∧
              (∀ a, 1 ≤ a → a < I → M a (m' + 1) = accNR cost a (m' + 1)))
            (1 + (n - 1))
            (forRange (fun N i => accStepNR cost N i (m' + 1)) N 1 (n - 1)) := by
        refine forRange_ind (fun N i => accStepNR cost N i (m' + 1))
          (fun I M =>
            (∀ a b, a = 0 ∨ b = 0 → M a b = accNR cost a b) ∧
            (∀ a b, 1 ≤ a → a < n → 1 ≤ b → b < m' + 1 →
              M a b = accNR cost a b) ∧
            (∀ a, 1 ≤ a → a < I → M a (m' + 1) = accNR cost a (m' + 1)))
          1 N (n - 1) ?_ ?_
        · refine ⟨hPm.1, hPm.2, ?_⟩
          intro a ha ha'
          omega
        · intro t T ht ht' hQt
          obtain ⟨q1, q2, q3⟩ := hQt
          obtain ⟨t', rfl⟩ : ∃ t', t = t' + 1 := ⟨t - 1, by omega⟩
          have r1 : T t' m' = accNR cost t' m' := by
            rcases Nat.eq_zero_or_pos t' with h0 | h0
            · exact q1 _ _ (Or.inl h0)
            · rcases Nat.eq_zero_or_pos m' with h1 | h1
              · exact q1 _ _ (Or.inr h1)
              · exact q2 _ _ h0 (by omega) h1 (by omega)
          have r2 : T t' (m' + 1) = accNR cost t' (m' + 1) := by
            rcases Nat.eq_zero_or_pos t' with h0 | h0
            · exact q1 _ _ (Or.inl h0)
            · exact q3 _ h0 (by omega)
          have r3 : T (t' + 1) m' = accNR cost (t' + 1) m' := by
            rcases Nat.eq_zero_or_pos m' with h1 | h1
            · exact q1 _ _ (Or.inr h1)
            · exact q2 _ _ (by omega) (by omega) h1 (by omega)
          have hval :
              cost (t' + 1) (m' + 1) +
                  min3 (T (t' + 1 - 1) (m' + 1 - 1)) (T (t' + 1 - 1) (m' + 1))
                    (T (t' + 1) (m' + 1 - 1)) =
                accNR cost (t' + 1) (m' + 1) := by
            simp only [Nat.add_sub_cancel]
            rw [r1, r2, r3, accNR]
          refine ⟨?_, ?_, ?_⟩
          · intro a b hab
            have hne : ¬(a = t' + 1 ∧ b = m' + 1) := by
              rcases hab with h | h <;> omega
            simpa [accStepNR, mupd, hne] using q1 a b hab
          · intro a b ha ha' hb hb'
            have hne : ¬(a = t' + 1 ∧ b = m' + 1) := by omega
            simpa [accStepNR, mupd, hne] using q2 a b ha ha' hb hb'
          · intro a ha ha'
            rcases Nat.lt_or_ge a (t' + 1) with hlt | hge
            · have hne : a ≠ t' + 1 := by omega
              simpa [accStepNR, mupd, hne] using q3 a ha hlt
            · have : a = t' + 1 := by omega
              subst this
              simpa [accStepNR, mupd] using hval
      refine ⟨hinner.1, ?_⟩
      intro a b ha ha' hb hb'
      rcases Nat.lt_or_ge b (m' + 1) with h | h
      · exact hinner.2.1 a b ha ha' hb h
      · have : b = m' + 1 := by omega
        subst this
        exact hinner.2.2 a ha (by omega)
  intro i j hi hj
  rcases Nat.eq_zero_or_pos i with h0 | h0
  · exact hfin.1 i j (Or.inl h0)
  · rcases Nat.eq_zero_or_pos j with h1 | h1
    · exact hfin.1 i j (Or.inr h1)
    · exact hfin.2 i j h0 hi h1 (by omega)

theorem accumulated_none_eq (n : ℕ) (cost : Mat) :
    ∀ i j, i < n → j < n →
      accumulated_cost_matrix n cost none i j = accNR cost i j :=
  acc_no_region_eq n cost

theorem min3_mono {a b c a' b' c' : WithTop ℚ} (ha : a ≤ a') (hb : b ≤ b')
    (hc : c ≤ c') : min3 a b c ≤ min3 a' b' c' := by
  rw [min3_eq, min3_eq]
  exact min_le_min ha (min_le_min hb hc)

theorem rowSum_mono (c1 c2 : Mat) (h : ∀ i j, c1 i j ≤ c2 i j) :
    ∀ j, rowSum c1 j ≤ rowSum c2 j := by
  intro j
  induction j with
  | zero => simpa [rowSum] using h 0 0
  | succ j ih => exact add_le_add ih (h 0 (j + 1))

theorem colSum_mono (c1 c2 : Mat) (h : ∀ i j, c1 i j ≤ c2 i j) :
    ∀ i, colSum c1 i ≤ colSum c2 i := by
  intro i
  induction i with
  | zero => simpa [colSum] using h 0 0
  | succ i ih => exact add_le_add ih (h (i + 1) 0)

/-- The DTW recurrence is monotone in the cost matrix. -/
theorem accNR_mono (c1 c2 : Mat) (h : ∀ i j, c1 i j ≤ c2 i j) :
    ∀ i j, accNR c1 i j ≤ accNR c2 i j := by
  have key : ∀ s i j, i + j ≤ s → accNR c1 i j ≤ accNR c2 i j := by
    intro s
    induction s with
    | zero =>
        intro i j hs
        have hi : i = 0 := by omega
        have hj : j = 0 := by omega
        subst hi; subst hj
        simpa [accNR] using colSum_mono c1 c2 h 0
    | succ s ih =>
        intro i j hs
        cases i with
        | zero =>
            cases j with
            | zero => simpa [accNR] using colSum_mono c1 c2 h 0
            | succ j => simpa [accNR] using rowSum_mono c1 c2 h (j + 1)
        | succ i =>
            cases j with
            | zero => simpa [accNR] using colSum_mono c1 c2 h (i + 1)
            | succ j =>
                rw [accNR, accNR]
                exact add_le_add (h (i + 1) (j + 1))
                  (min3_mono (ih i j (by omega)) (ih i (j + 1) (by omega))
                    (ih (i + 1) j (by omega)))
  intro i j
  exact key (i + j) i j le_rfl

theorem min3_comm_right (a b c : WithTop ℚ) : min3 a b c = min3 a c b := by
  rw [min3_eq, min3_eq, min_comm b c]

theorem colSum_transpose (cost : Mat) :
    ∀ i, colSum (fun a b => cost b a) i = rowSum cost i := by
  intro i
  induction i with
  | zero => simp [colSum, rowSum]
  | succ i ih => simp [colSum, rowSum, ih]

theorem rowSum_transpose (cost : Mat) :
    ∀ j, rowSum (fun a b => cost b a) j = colSum cost j := by
  intro j
  induction j with
  | zero => simp [colSum, rowSum]
  | succ j ih => simp [colSum, rowSum, ih]

theorem accNR_zero_left (cost : Mat) : ∀ j, accNR cost 0 j = rowSum cost j := by
  intro j
  cases j with
  | zero => simp [accNR, rowSum, colSum]
  | succ j => simp [accNR]

/-- Transposing the cost matrix transposes the accumulated cost matrix. -/
theorem accNR_transpose (cost : Mat) :
    ∀ i j, accNR (fun a b => cost b a) i j = accNR cost j i := by
  have key : ∀ s i j, i + j ≤ s →
      accNR (fun a b => cost b a) i j = accNR cost j i := by
    intro s
    induction s with
    | zero =>
        intro i j hs
        have hi : i = 0 := by omega
        have hj : j = 0 := by omega
        subst hi; subst hj
        simp [accNR, colSum]
    | succ s ih =>
        intro i j hs
        cases i with
        | zero =>
            cases j with
            | zero => simp [accNR, colSum]
            | succ j =>
                rw [accNR, accNR_zero_left]
                exact rowSum_transpose cost (j + 1)
        | succ i =>
            cases j with
            | zero =>
                rw [accNR, accNR_zero_left cost (i + 1)]
                exact colSum_transpose cost (i + 1)
            | succ j =>
                rw [accNR, accNR]
                rw [ih i j (by omega), ih i (j + 1) (by omega),
                  ih (i + 1) j (by omega)]
                rw [min3_comm_right]
  intro i j
  exact key (i + j) i j le_rfl

/-- Value left in row 0 of the region fold's base fill at a column
`j ≥ 1` (written by `acc[0, 0:region[1,0]] = cumsum(...)`). -/
def baseRow0 (cost : Mat) (hi0 : ℕ) (j : ℕ) : WithTop ℚ :=
  if j < hi0 then rowSum cost j else ⊤

/-- Closed-form recursion for the final state of
`_accumulated_cost_matrix_region`.  For a cell `(0, j+1)` inside the
region the code reads `acc[-1][j+1] = acc[n-1][j+1]`, which at that
moment still holds its base value `inf` (row `n-1 ≥ 1`, column `j+1 ≥ 1`;
requires `n ≥ 2`), and `acc[-1][j] = acc[n-1][j]`, which is final because
column `j` is finished — hence the `⊤` and the `pyPred` read below.
Cells outside the region keep their base-fill value. -/
def accRegRec (n : ℕ) (cost : Mat) (lo hi : ℕ → ℕ) : ℕ → ℕ → WithTop ℚ
  | i, 0 => if i < hi 0 then colSum cost i else ⊤
  | 0, j + 1 =>
      if lo (j + 1) ≤ 0 ∧ 0 < hi (j + 1) then
        cost 0 (j + 1) +
          min3 (accRegRec n cost lo hi (n - 1) j) ⊤ (accRegRec n cost lo hi 0 j)
      else baseRow0 cost (hi 0) (j + 1)
  | i + 1, j + 1 =>
      if lo (j + 1) ≤ i + 1 ∧ i + 1 < hi (j + 1) then
        cost (i + 1) (j + 1) +
          min3 (accRegRec n cost lo hi i j) (accRegRec n cost lo hi i (j + 1))
            (accRegRec n cost lo hi (i + 1) j)
      else ⊤
termination_by i j => (j, i)

/-- Region shapes under which the region fold realises the specified
recurrence: column 0's row range is empty or exactly `{0}`, and every
later column excludes row 0 (so no base fill spills outside the region
and the wraparound read never happens). -/
def RegionSafe (n : ℕ) (lo hi : ℕ → ℕ) : Prop :=
  hi 0 ≤ 1 ∧ (hi 0 = 1 → lo 0 = 0) ∧
  (∀ j, j < n → 1 ≤ j → 1 ≤ lo j) ∧
  (∀ j, j < n → lo j ≤ hi j ∧ hi j ≤ n)

theorem accRegRec_top (n : ℕ) (cost : Mat) (lo hi : ℕ → ℕ)
    (hs : RegionSafe n lo hi) :
    ∀ i j, 1 ≤ j → ¬(lo j ≤ i ∧ i < hi j) → accRegRec n cost lo hi i j = ⊤ := by
  obtain ⟨hs1, hs2, hs3, hs4⟩ := hs
  intro i j hj hout
  obtain ⟨j', rfl⟩ : ∃ j', j = j' + 1 := ⟨j - 1, by omega⟩
  cases i with
  | zero =>
      rw [accRegRec, if_neg hout]
      have : ¬(j' + 1 < hi 0) := by omega
      simp [baseRow0, this]
  | succ i => rw [accRegRec, if_neg hout]

theorem accBaseR_eq_accRegRec (n : ℕ) (cost : Mat) (lo hi : ℕ → ℕ) :
    ∀ a, accBaseR cost (hi 0) a 0 = accRegRec n cost lo hi a 0 := by
  intro a
  by_cases h : a < hi 0
  · simp [accBaseR, accRegRec, h]
  · have h0 : ¬(a = 0 ∧ (0 : ℕ) < hi 0) := by omega
    simp only [accBaseR, accRegRec]
    rw [if_neg (by omega), if_neg h0, if_neg h]

/-- Under `RegionSafe` regions the region fold computes `accRegRec` on
every column `j < n`: each cell is written at most once and each write
reads only settled values. -/
theorem acc_region_eq (n : ℕ) (cost : Mat) (lo hi : ℕ → ℕ)
    (hs : RegionSafe n lo hi) :
    ∀ i j, j < n →
      accumulated_cost_matrix_region n cost (lo, hi) i j =
        accRegRec n cost lo hi i j := by
  obtain ⟨hs1, hs2, hs3, hs4⟩ := hs
  have hfin :
      (fun (J : ℕ) (M : Mat) =>
          (∀ a b, b = 0 ∨ (1 ≤ b ∧ b < J) → M a b = accRegRec n cost lo hi a b) ∧
          (∀ a b, 1 ≤ b → J ≤ b → M a b = ⊤))
        (1 + (n - 1)) (accumulated_cost_matrix_region n cost (lo, hi)) := by
    unfold accumulated_cost_matrix_region
    refine forRange_ind
      (fun M j => forRange (fun N i => accStepR n cost N i j) M
        ((lo, hi).1 j) ((lo, hi).2 j - (lo, hi).1 j))
      (fun J M =>
        (∀ a b, b = 0 ∨ (1 ≤ b ∧ b < J) → M a b = accRegRec n cost lo hi a b) ∧
        (∀ a b, 1 ≤ b → J ≤ b → M a b = ⊤))
      1 (accBaseR cost ((lo, hi).2 0)) (n - 1) ?_ ?_
    · constructor
      · intro a b hb
        rcases hb with rfl | hb
        · exact accBaseR_eq_accRegRec n cost lo hi a
        · omega
      · intro a b hb _
        have : ¬(a = 0 ∧ b < hi 0) := by omega
        simp only [accBaseR]
        rw [if_neg (by omega), if_neg this]
    · intro m N hm hm' hPm
      obtain ⟨m', rfl⟩ : ∃ m', m = m' + 1 := ⟨m - 1, by omega⟩
      have hmn : m' + 1 < n := by omega
      have hlo1 : 1 ≤ lo (m' + 1) := hs3 (m' + 1) hmn (by omega)
      have hinner :
          (fun (I : ℕ) (M : Mat) =>
              (∀ a b, b = 0 ∨ (1 ≤ b ∧ b < m' + 1) →
                M a b = accRegRec n cost lo hi a b) ∧
              (∀ a b, 1 ≤ b → m' + 1 < b → M a b = ⊤) ∧
              (∀ a, lo (m' + 1) ≤ a → a < I →
                M a (m' + 1) = accRegRec n cost lo hi a (m' + 1)) ∧
              (∀ a, ¬(lo (m' + 1) ≤ a ∧ a < I) → M a (m' + 1) = ⊤))
            (lo (m' + 1) + (hi (m' + 1) - lo (m' + 1)))
            (forRange (fun N i => accStepR n cost N i (m' + 1)) N
              (lo (m' + 1)) (hi (m' + 1) - lo (m' + 1))) := by
        refine forRange_ind (fun N i => accStepR n cost N i (m' + 1))
          (fun I M =>
            (∀ a b, b = 0 ∨ (1 ≤ b ∧ b < m' + 1) →
              M a b = accRegRec n cost lo hi a b) ∧
            (∀ a b, 1 ≤ b → m' + 1 < b → M a b = ⊤) ∧
            (∀ a, lo (m' + 1) ≤ a → a < I →
              M a (m' + 1) = accRegRec n cost lo hi a (m' + 1)) ∧
            (∀ a, ¬(lo (m' + 1) ≤ a ∧ a < I) → M a (m' + 1) = ⊤))
          (lo (m' + 1)) N (hi (m' + 1) - lo (m' + 1)) ?_ ?_
        · refine ⟨?_, ?_, ?_, ?_⟩
          · intro a b hb
            exact hPm.1 a b (by omega)
          · intro a b hb hb'
            exact hPm.2 a b hb (by omega)
          · intro a ha ha'
            omega
          · intro a _
            exact hPm.2 a (m' + 1) (by omega) le_rfl
        · intro t T ht ht' hQt
          obtain ⟨q1, q2, q3, q4⟩ := hQt
          obtain ⟨t', rfl⟩ : ∃ t', t = t' + 1 := ⟨t - 1, by omega⟩
          have hreg : lo (m' + 1) ≤ t' + 1 ∧ t' + 1 < hi (m' + 1) := by omega
          have r1 : T t' m' = accRegRec n cost lo hi t' m' := by
            rcases Nat.eq_zero_or_pos m' with h1 | h1
            · exact q1 _ _ (Or.inl h1)
            · exact q1 _ _ (Or.inr ⟨h1, by omega⟩)
          have r2 : T t' (m' + 1) = accRegRec n cost lo hi t' (m' + 1) := by
            rcases Nat.lt_or_ge t' (lo (m' + 1)) with hlt | hge
            · rw [q4 t' (by omega)]
              rw [accRegRec_top n cost lo hi ⟨hs1, hs2, hs3, hs4⟩ t' (m' + 1)
                (by omega) (by omega)]
            · exact q3 t' hge (by omega)
          have r3 : T (t' + 1) m' = accRegRec n cost lo hi (t' + 1) m' := by
            rcases Nat.eq_zero_or_pos m' with h1 | h1
            · exact q1 _ _ (Or.inl h1)
            · exact q1 _ _ (Or.inr ⟨h1, by omega⟩)
          have hval :
              cost (t' + 1) (m' + 1) +
                  min3 (T (pyPred n (t' + 1)) (m' + 1 - 1))
                    (T (pyPred n (t' + 1)) (m' + 1)) (T (t' + 1) (m' + 1 - 1)) =
                accRegRec n cost lo hi (t' + 1) (m' + 1) := by
            simp only [pyPred, Nat.add_sub_cancel, Nat.succ_ne_zero, if_false]
            rw [r1, r2, r3, accRegRec, if_pos hreg]
          refine ⟨?_, ?_, ?_, ?_⟩
          · intro a b hb
            have hne : ¬(a = t' + 1 ∧ b = m' + 1) := by omega
            simpa [accStepR, mupd, hne] using q1 a b hb
          · intro a b hb hb'
            have hne : ¬(a = t' + 1 ∧ b = m' + 1) := by omega
            simpa [accStepR, mupd, hne] using q2 a b hb hb'
          · intro a ha ha'
            rcases Nat.lt_or_ge a (t' + 1) with hlt | hge
            · have hne : a ≠ t' + 1 := by omega
              simpa [accStepR, mupd, hne] using q3 a ha hlt
            · have : a = t' + 1 := by omega
              subst this
              simpa [accStepR, mupd] using hval
          · intro a ha
            have hne : a ≠ t' + 1 := by omega
            simpa [accStepR, mupd, hne] using q4 a (by omega)
      constructor
      · intro a b hb
        rcases hb with rfl | hb
        · exact hinner.1 a 0 (Or.inl rfl)
        · rcases Nat.lt_or_ge b (m' + 1) with h | h
          · exact hinner.1 a b (Or.inr ⟨hb.1, h⟩)
          · have hbm : b = m' + 1 := by omega
            subst hbm
            rcases Nat.lt_or_ge a (lo (m' + 1)) with hlt | hge
            · have h1 := hinner.2.2.2 a (by omega)
              have h2 := accRegRec_top n cost lo hi ⟨hs1, hs2, hs3, hs4⟩ a
                (m' + 1) (by omega) (by omega)
              exact h1.trans h2.symm
            · rcases Nat.lt_or_ge a (hi (m' + 1)) with hlt2 | hge2
              · refine hinner.2.2.1 a hge ?_
                have := (hs4 (m' + 1) hmn).1
                omega
              · have h1 := hinner.2.2.2 a (by omega)
                have h2 := accRegRec_top n cost lo hi ⟨hs1, hs2, hs3, hs4⟩ a
                  (m' + 1) (by omega) (by omega)
                exact h1.trans h2.symm
      · intro a b hb hb'
        exact hinner.2.1 a b hb (by omega)
  intro i j hj
  rcases Nat.eq_zero_or_pos j with h0 | h0
  · subst h0
    exact hfin.1 i 0 (Or.inl rfl)
  · exact hfin.1 i j (Or.inr ⟨h0, by omega⟩)

/-- Mask used by the specified recurrence: a predecessor outside the
region contributes `+∞`. -/
def maskReg (lo hi : ℕ → ℕ) (M : Mat) (a b : ℕ) : WithTop ℚ :=
  if lo b ≤ a ∧ a < hi b then M a b else ⊤

/-- Claim C1's property for the matrix `M` produced from `cost` and the
region `(lo, hi)`: cells outside the region are `+∞`; base row / base
column cells inside the region hold the running cumulative sum of the
cost entries along the (here: entirely valid) prefix of that row/column;
every interior in-region cell equals its cost plus the minimum of its
three predecessors, a predecessor outside the region contributing `+∞`. -/
def SpecAccRegion (n : ℕ) (cost : Mat) (lo hi : ℕ → ℕ) (M : Mat) : Prop :=
  (∀ i, i < n → ∀ j, j < n → ¬(lo j ≤ i ∧ i < hi j) → M i j = ⊤) ∧
  (∀ j, j < n → (∀ k, k ≤ j → lo k = 0 ∧ 0 < hi k) → M 0 j = rowSum cost j) ∧
  (∀ i, i < n → (∀ k, k ≤ i → lo 0 ≤ k ∧ k < hi 0) → M i 0 = colSum cost i) ∧
  (∀ i, i < n → ∀ j, j < n → 1 ≤ i → 1 ≤ j → lo j ≤ i → i < hi j →
    M i j = cost i j +
      min3 (maskReg lo hi M (i - 1) (j - 1)) (maskReg lo hi M (i - 1) j)
        (maskReg lo hi M i (j - 1)))

/-- Cost matrix of the C1 counterexample: row 0 is `[0, 100, 0]`, all
other entries are `0`. -/
def c1Cost : Mat := fun i j => if i = 0 ∧ j = 1 then (100 : ℚ) else (0 : ℚ)

def c1Lo : ℕ → ℕ := fun _ => 0

def c1Hi : ℕ → ℕ := fun _ => 3

/-- C1 as stated is false: with the full 3×3 grid as region, the code
overwrites the in-region base-row cell `(0, 2)` during the column sweep,
reading `acc[-1][1] = acc[2][1] = 0` by Python wraparound, so
`acc[0][2] = 0` instead of the cumulative sum `100` demanded by the
claim. -/
theorem c1_counterexample :
    ¬ SpecAccRegion 3 c1Cost c1Lo c1Hi
        (accumulated_cost_matrix 3 c1Cost (some (c1Lo, c1Hi))) := by
  intro h
  have hbase := h.2.1 2 (by omega)
    (by intro k _; exact ⟨rfl, by show (0 : ℕ) < 3; omega⟩)
  have hval :
      accumulated_cost_matrix 3 c1Cost (some (c1Lo, c1Hi)) 0 2 = (0 : ℚ) := by
    norm_num [accumulated_cost_matrix, accumulated_cost_matrix_region, forRange,
      accStepR, accBaseR, mupd, pyPred, min3, wmin, rowSum, colSum,
      c1Cost, c1Lo, c1Hi, ← WithTop.coe_add, WithTop.coe_le_coe]
    decide
  have hrow : rowSum c1Cost 2 = (100 : ℚ) := by
    norm_num [rowSum, c1Cost, ← WithTop.coe_add]
  rw [hval, hrow] at hbase
  exact absurd hbase (by
    intro hc
    rw [WithTop.coe_inj] at hc
    norm_num at hc)

theorem accRegRec_top_all (n : ℕ) (cost : Mat) (lo hi : ℕ → ℕ)
    (hs : RegionSafe n lo hi) :
    ∀ a b, ¬(lo b ≤ a ∧ a < hi b) → accRegRec n cost lo hi a b = ⊤ := by
  intro a b hout
  rcases Nat.eq_zero_or_pos b with rfl | hb
  · have hna : ¬(a < hi 0) := by
      intro hlt
      rcases Nat.eq_zero_or_pos a with rfl | ha
      · have h1 := hs.1
        have h2 := hs.2.1 (by omega)
        exact hout ⟨by omega, hlt⟩
      · have h1 := hs.1
        omega
    rw [accRegRec, if_neg hna]
  · exact accRegRec_top n cost lo hi hs a b hb hout

/-- C1, amended: the specified recurrence holds for every cost matrix
provided the region is `RegionSafe` (column 0's row range empty or
exactly `{0}`, later columns excluding row 0); for other regions the
base fills spill outside the region or the wraparound overwrite of row 0
breaks the recurrence, as `c1_counterexample` shows. -/
theorem c1_amended_theorem (n : ℕ) (cost : Mat) (lo hi : ℕ → ℕ)
    (hn : 2 ≤ n) (hsafe : RegionSafe n lo hi) :
    SpecAccRegion n cost lo hi
      (accumulated_cost_matrix n cost (some (lo, hi))) := by
  have heq : ∀ a b, b < n →
      accumulated_cost_matrix n cost (some (lo, hi)) a b =
        accRegRec n cost lo hi a b :=
    fun a b hb => acc_region_eq n cost lo hi hsafe a b hb
  have hmask : ∀ a b, b < n →
      maskReg lo hi (accumulated_cost_matrix n cost (some (lo, hi))) a b =
        accRegRec n cost lo hi a b := by
    intro a b hb
    unfold maskReg
    by_cases hin : lo b ≤ a ∧ a < hi b
    · rw [if_pos hin]
      exact heq a b hb
    · rw [if_neg hin]
      exact (accRegRec_top_all n cost lo hi hsafe a b hin).symm
  have h00 : 0 < hi 0 → accRegRec n cost lo hi 0 0 = colSum cost 0 := by
    intro h
    rw [accRegRec, if_pos h]
  refine ⟨?_, ?_, ?_, ?_⟩
  · intro i hi' j hj hout
    rw [heq i j hj]
    exact accRegRec_top_all n cost lo hi hsafe i j hout
  · intro j hj hpre
    rcases Nat.eq_zero_or_pos j with rfl | hj1
    · rw [heq 0 0 hj, h00 (hpre 0 le_rfl).2]
      simp [rowSum, colSum]
    · exfalso
      have h1 := (hpre 1 (by omega)).1
      have h2 := hsafe.2.2.1 1 (by omega) le_rfl
      omega
  · intro i hi' hpre
    rcases Nat.eq_zero_or_pos i with rfl | hi1
    · rw [heq 0 0 (by omega), h00 (by have := (hpre 0 le_rfl).2; omega)]
    · exfalso
      have h1 := (hpre 1 (by omega)).2
      have h2 := hsafe.1
      omega
  · intro i hi' j hj h1i h1j hloj hhij
    obtain ⟨i', rfl⟩ : ∃ i', i = i' + 1 := ⟨i - 1, by omega⟩
    obtain ⟨j', rfl⟩ : ∃ j', j = j' + 1 := ⟨j - 1, by omega⟩
    rw [heq _ _ hj]
    rw [accRegRec, if_pos ⟨hloj, hhij⟩]
    simp only [Nat.add_sub_cancel]
    rw [hmask i' j' (by omega), hmask i' (j' + 1) hj, hmask (i' + 1) j' (by omega)]

/-- Concrete `RegionSafe` instance for the amended C1 theorem:
`n = 2`, region `lo = [0, 1]`, `hi = [1, 2]`, constant cost `1`. -/
def c1wCost : Mat := fun _ _ => (1 : ℚ)

def c1wLo : ℕ → ℕ := fun j => if j = 0 then 0 else 1

def c1wHi : ℕ → ℕ := fun j => if j = 0 then 1 else 2

theorem c1w_region_safe : RegionSafe 2 c1wLo c1wHi := by
  refine ⟨by norm_num [c1wHi], fun _ => rfl, ?_, ?_⟩
  · intro j hj h1
    have hj1 : j = 1 := by omega
    subst hj1
    norm_num [c1wLo]
  · intro j hj
    have : j = 0 ∨ j = 1 := by omega
    rcases this with rfl | rfl <;> norm_num [c1wLo, c1wHi]

theorem c1_amended_witness :
    2 ≤ 2 ∧ RegionSafe 2 c1wLo c1wHi ∧
      SpecAccRegion 2 c1wCost c1wLo c1wHi
        (accumulated_cost_matrix 2 c1wCost (some (c1wLo, c1wHi))) :=
  ⟨le_rfl, c1w_region_safe,
    c1_amended_theorem 2 c1wCost c1wLo c1wHi le_rfl c1w_region_safe⟩

/-- `_return_path`'s backtracking loop, building the path list from
`(i, j)` down to `(0, 0)` in the order the code appends (end cell
first).  `np.argmin` returns the first index attaining the minimum, so
the three cases below reproduce its fixed tie priority: diagonal, then
up (`(i-1, j)`), then left (`(i, j-1)`). -/
def backtrack (acc : Mat) : ℕ → ℕ → List (ℕ × ℕ)
  | 0, 0 => [(0, 0)]
  | 0, j + 1 => (0, j + 1) :: backtrack acc 0 j
  | i + 1, 0 => (i + 1, 0) :: backtrack acc i 0
  | i + 1, j + 1 =>
      (i + 1, j + 1) ::
        (if acc i j ≤ acc i (j + 1) ∧ acc i j ≤ acc (i + 1) j then
          backtrack acc i j
        else if acc i (j + 1) ≤ acc (i + 1) j then backtrack acc i (j + 1)
        else backtrack acc (i + 1) j)
termination_by i j => (i, j)

/-- `_return_path`: backtrack from `(n-1, n-1)` and reverse into forward
(origin-to-end) order.  The code finally transposes the list into a
`2 × L` index array; we keep the list of `(i, j)` pairs. -/
def return_path (n : ℕ) (acc : Mat) : List (ℕ × ℕ) :=
  (backtrack acc (n - 1) (n - 1)).reverse

/-- One allowed forward move: diagonal, down (`i+1`), or right (`j+1`).
In backtracking terms these are the moves diagonal, up, left. -/
def moveStep (u v : ℕ × ℕ) : Prop :=
  (v.1 = u.1 + 1 ∧ v.2 = u.2 + 1) ∨ (v.1 = u.1 + 1 ∧ v.2 = u.2) ∨
    (v.1 = u.1 ∧ v.2 = u.2 + 1)

/-- The predecessor the claim prescribes for an interior cell: the
minimum-cost neighbour among `(i-1, j-1)`, `(i-1, j)`, `(i, j-1)`, ties
broken in that fixed priority order. -/
def chosenPred (acc : Mat) (i j : ℕ) : ℕ × ℕ :=
  if acc (i - 1) (j - 1) ≤ acc (i - 1) j ∧ acc (i - 1) (j - 1) ≤ acc i (j - 1) then
    (i - 1, j - 1)
  else if acc (i - 1) j ≤ acc i (j - 1) then (i - 1, j) else (i, j - 1)

/-- The predecessor the claim prescribes for any non-origin cell
(forced moves on the borders, `chosenPred` in the interior). -/
def backPred (acc : Mat) (v : ℕ × ℕ) : ℕ × ℕ :=
  if v.1 = 0 then (0, v.2 - 1)
  else if v.2 = 0 then (v.1 - 1, 0)
  else chosenPred acc v.1 v.2

theorem backtrack_head (acc : Mat) (i j : ℕ) :
    (backtrack acc i j).head? = some (i, j) := by
  cases i with
  | zero =>
      cases j with
      | zero => simp [backtrack]
      | succ j => simp [backtrack]
  | succ i =>
      cases j with
      | zero => simp [backtrack]
      | succ j =>
          rw [backtrack]
          simp

theorem getLast?_cons_of_ne_nil {α : Type} (a : α) (l : List α) (h : l ≠ []) :
    (a :: l).getLast? = l.getLast? := by
  cases l with
  | nil => exact absurd rfl h
  | cons b t => exact List.getLast?_cons_cons

theorem backtrack_ne_nil (acc : Mat) (i j : ℕ) : backtrack acc i j ≠ [] := by
  cases i with
  | zero =>
      cases j with
      | zero => simp [backtrack]
      | succ j => simp [backtrack]
  | succ i =>
      cases j with
      | zero => simp [backtrack]
      | succ j => rw [backtrack]; simp

theorem backtrack_getLast (acc : Mat) : ∀ i j,
    (backtrack acc i j).getLast? = some (0, 0) := by
  have key : ∀ s i j, i + j ≤ s → (backtrack acc i j).getLast? = some (0, 0) := by
    intro s
    induction s with
    | zero =>
        intro i j hs
        have hi : i = 0 := by omega
        have hj : j = 0 := by omega
        subst hi; subst hj
        simp [backtrack]
    | succ s ih =>
        intro i j hs
        cases i with
        | zero =>
            cases j with
            | zero => simp [backtrack]
            | succ j =>
                rw [backtrack,
                  getLast?_cons_of_ne_nil _ _ (backtrack_ne_nil acc 0 j)]
                exact ih 0 j (by omega)
        | succ i =>
            cases j with
            | zero =>
                rw [backtrack,
                  getLast?_cons_of_ne_nil _ _ (backtrack_ne_nil acc i 0)]
                exact ih i 0 (by omega)
            | succ j =>
                rw [backtrack]
                by_cases h1 : acc i j ≤ acc i (j + 1) ∧ acc i j ≤ acc (i + 1) j
                · rw [if_pos h1,
                    getLast?_cons_of_ne_nil _ _ (backtrack_ne_nil acc i j)]
                  exact ih i j (by omega)
                · rw [if_neg h1]
                  by_cases h2 : acc i (j + 1) ≤ acc (i + 1) j
                  · rw [if_pos h2,
                      getLast?_cons_of_ne_nil _ _ (backtrack_ne_nil acc i (j + 1))]
                    exact ih i (j + 1) (by omega)
                  · rw [if_neg h2,
                      getLast?_cons_of_ne_nil _ _ (backtrack_ne_nil acc (i + 1) j)]
                    exact ih (i + 1) j (by omega)
  intro i j
  exact key (i + j) i j le_rfl

theorem backtrack_chain (acc : Mat) : ∀ i j,
    List.Chain' (fun v u => u = backPred acc v ∧ moveStep u v)
      (backtrack acc i j) := by
  have key : ∀ s i j, i + j ≤ s →
      List.Chain' (fun v u => u = backPred acc v ∧ moveStep u v)
        (backtrack acc i j) := by
    intro s
    induction s with
    | zero =>
        intro i j hs
        have hi : i = 0 := by omega
        have hj : j = 0 := by omega
        subst hi; subst hj
        simp [backtrack]
    | succ s ih =>
        intro i j hs
        cases i with
        | zero =>
            cases j with
            | zero => simp [backtrack]
            | succ j =>
                rw [backtrack, List.chain'_cons']
                refine ⟨?_, ih 0 j (by omega)⟩
                intro b hb
                rw [backtrack_head] at hb
                cases hb
                exact ⟨by simp [backPred], Or.inr (Or.inr ⟨rfl, rfl⟩)⟩
        | succ i =>
            cases j with
            | zero =>
                rw [backtrack, List.chain'_cons']
                refine ⟨?_, ih i 0 (by omega)⟩
                intro b hb
                rw [backtrack_head] at hb
                cases hb
                exact ⟨by simp [backPred], Or.inr (Or.inl ⟨rfl, rfl⟩)⟩
            | succ j =>
                rw [backtrack]
                by_cases h1 : acc i j ≤ acc i (j + 1) ∧ acc i j ≤ acc (i + 1) j
                · rw [if_pos h1, List.chain'_cons']
                  refine ⟨?_, ih i j (by omega)⟩
                  intro b hb
                  rw [backtrack_head] at hb
                  cases hb
                  refine ⟨?_, Or.inl ⟨rfl, rfl⟩⟩
                  simp only [backPred, chosenPred, Nat.add_sub_cancel]
                  rw [if_neg (by omega), if_neg (by omega), if_pos h1]
                · rw [if_neg h1]
                  by_cases h2 : acc i (j + 1) ≤ acc (i + 1) j
                  · rw [if_pos h2, List.chain'_cons']
                    refine ⟨?_, ih i (j + 1) (by omega)⟩
                    intro b hb
                    rw [backtrack_head] at hb
                    cases hb
                    refine ⟨?_, Or.inr (Or.inl ⟨rfl, rfl⟩)⟩
                    simp only [backPred, chosenPred, Nat.add_sub_cancel]
                    rw [if_neg (by omega), if_neg (by omega), if_neg h1, if_pos h2]
                  · rw [if_neg h2, List.chain'_cons']
                    refine ⟨?_, ih (i + 1) j (by omega)⟩
                    intro b hb
                    rw [backtrack_head] at hb
                    cases hb
                    refine ⟨?_, Or.inr (Or.inr ⟨rfl, rfl⟩)⟩
                    simp only [backPred, chosenPred, Nat.add_sub_cancel]
                    rw [if_neg (by omega), if_neg (by omega), if_neg h1, if_neg h2]
  intro i j
  exact key (i + j) i j le_rfl

/-- Claim C4: for every accumulated cost matrix and `n ≥ 1` the
reconstructed path starts at `(0,0)`, ends at `(n-1, n-1)`, is in
forward order, every consecutive pair is one of the three allowed moves,
and each backtracking step picks the minimum-cost predecessor with the
fixed diagonal/up/left tie priority (`backPred`). -/
theorem c4_theorem (n : ℕ) (acc : Mat) (_hn : 1 ≤ n) :
    (return_path n acc).head? = some (0, 0) ∧
    (return_path n acc).getLast? = some (n - 1, n - 1) ∧
    List.Chain' moveStep (return_path n acc) ∧
    List.Chain' (fun u v => u = backPred acc v) (return_path n acc) := by
  have hchain := backtrack_chain acc (n - 1) (n - 1)
  refine ⟨?_, ?_, ?_, ?_⟩
  · rw [return_path, List.head?_reverse]
    exact backtrack_getLast acc (n - 1) (n - 1)
  · rw [return_path, List.getLast?_reverse]
    exact backtrack_head acc (n - 1) (n - 1)
  · rw [return_path, List.chain'_reverse]
    exact List.Chain'.imp (fun v u h => h.2) hchain
  · rw [return_path, List.chain'_reverse]
    exact List.Chain'.imp (fun v u h => h.1) hchain

theorem c4_witness :
    1 ≤ 2 ∧
      ((return_path 2 (fun _ _ => (0 : ℚ))).head? = some (0, 0) ∧
        (return_path 2 (fun _ _ => (0 : ℚ))).getLast? = some (2 - 1, 2 - 1) ∧
        List.Chain' moveStep (return_path 2 (fun _ _ => (0 : ℚ))) ∧
        List.Chain' (fun u v => u = backPred (fun _ _ => (0 : ℚ)) v)
          (return_path 2 (fun _ _ => (0 : ℚ)))) :=
  ⟨by omega, c4_theorem 2 (fun _ _ => (0 : ℚ)) (by omega)⟩

/-- The `window_size` argument of `sakoe_chiba_band`: the code branches
on the numeric type (Python `int` vs `float`). -/
inductive WindowSize where
  | wInt (w : ℤ)
  | wFloat (q : ℚ)

/-- Window validation/resolution of `sakoe_chiba_band`: an integer
window must satisfy `0 ≤ w ≤ n - 1` and is used as is; a float window
must lie in `[0, 1]` and resolves to `ceil(w * (n - 1))`. -/
def resolveWindow (n : ℕ) : WindowSize → Except String ℤ
  | WindowSize.wInt w =>
      if 0 ≤ w ∧ w ≤ (n : ℤ) - 1 then Except.ok w
      else Except.error "invalid integer window_size"
  | WindowSize.wFloat q =>
      if 0 ≤ q ∧ q ≤ 1 then Except.ok ⌈q * ((n : ℚ) - 1)⌉
      else Except.error "invalid float window_size"

/-- First row of the band region: `np.clip(arange - w, 0, n)`. -/
def bandLo (n : ℕ) (w : ℤ) (j : ℕ) : ℕ :=
  (max 0 (min (n : ℤ) ((j : ℤ) - w))).toNat

/-- Second row of the band region: `np.clip(arange + w + 1, 0, n)`. -/
def bandHi (n : ℕ) (w : ℤ) (j : ℕ) : ℕ :=
  (max 0 (min (n : ℤ) ((j : ℤ) + w + 1))).toNat

/-- `sakoe_chiba_band`. -/
def sakoe_chiba_band (n : ℕ) (ws : WindowSize) : Except String Region :=
  if n < 2 then Except.error "n_timestamps must be >= 2"
  else
    match resolveWindow n ws with
    | Except.error e => Except.error e
    | Except.ok w => Except.ok (bandLo n w, bandHi n w)

/-- Claim C6: for a valid window (integer `0 ≤ w ≤ n-1`, or a float in
`[0,1]` resolved to `ceil(f * (n-1))`) the band's column `j` row range
is `[max(0, j - w), min(n, j + w + 1))`; in particular
`sakoe_chiba_band(5, 2)` is `lo = [0,0,0,1,2]`, `hi = [3,4,5,5,5]`. -/
theorem c6_theorem (n : ℕ) (hn : 2 ≤ n) :
    (∀ w : ℕ, w ≤ n - 1 →
      sakoe_chiba_band n (WindowSize.wInt w) =
          Except.ok (bandLo n w, bandHi n w) ∧
        ∀ j, j < n → (bandLo n w j : ℤ) = max 0 ((j : ℤ) - w) ∧
          (bandHi n w j : ℤ) = min (n : ℤ) ((j : ℤ) + w + 1)) ∧
    (∀ q : ℚ, 0 ≤ q → q ≤ 1 →
      sakoe_chiba_band n (WindowSize.wFloat q) =
          Except.ok (bandLo n ⌈q * ((n : ℚ) - 1)⌉, bandHi n ⌈q * ((n : ℚ) - 1)⌉) ∧
        ∀ j, j < n →
          (bandLo n ⌈q * ((n : ℚ) - 1)⌉ j : ℤ) =
              max 0 ((j : ℤ) - ⌈q * ((n : ℚ) - 1)⌉) ∧
            (bandHi n ⌈q * ((n : ℚ) - 1)⌉ j : ℤ) =
              min (n : ℤ) ((j : ℤ) + ⌈q * ((n : ℚ) - 1)⌉ + 1)) ∧
    (List.range 5).map (bandLo 5 2) = [0, 0, 0, 1, 2] ∧
    (List.range 5).map (bandHi 5 2) = [3, 4, 5, 5, 5] := by
  refine ⟨?_, ?_, by decide, by decide⟩
  · intro w hw
    constructor
    · rw [sakoe_chiba_band, if_neg (by omega), resolveWindow,
        if_pos ⟨by omega, by omega⟩]
    · intro j hj
      constructor
      · simp only [bandLo]
        omega
      · simp only [bandHi]
        omega
  · intro q h0 h1
    have hn1 : (0 : ℚ) ≤ (n : ℚ) - 1 := by
      have : (1 : ℚ) ≤ (n : ℚ) := by exact_mod_cast Nat.one_le_of_lt hn
      linarith
    have hw0 : 0 ≤ ⌈q * ((n : ℚ) - 1)⌉ := Int.ceil_nonneg (mul_nonneg h0 hn1)
    have hw1 : ⌈q * ((n : ℚ) - 1)⌉ ≤ (n : ℤ) - 1 := by
      rw [Int.ceil_le]
      push_cast
      nlinarith
    constructor
    · rw [sakoe_chiba_band, if_neg (by omega), resolveWindow, if_pos ⟨h0, h1⟩]
    · intro j hj
      constructor
      · simp only [bandLo]
        omega
      · simp only [bandHi]
        omega

theorem c6_witness :
    2 ≤ 5 ∧
      ((∀ w : ℕ, w ≤ 5 - 1 →
        sakoe_chiba_band 5 (WindowSize.wInt w) =
            Except.ok (bandLo 5 w, bandHi 5 w) ∧
          ∀ j, j < 5 → (bandLo 5 w j : ℤ) = max 0 ((j : ℤ) - w) ∧
            (bandHi 5 w j : ℤ) = min (5 : ℤ) ((j : ℤ) + w + 1)) ∧
      (∀ q : ℚ, 0 ≤ q → q ≤ 1 →
        sakoe_chiba_band 5 (WindowSize.wFloat q) =
            Except.ok (bandLo 5 ⌈q * ((5 : ℚ) - 1)⌉,
              bandHi 5 ⌈q * ((5 : ℚ) - 1)⌉) ∧
          ∀ j, j < 5 →
            (bandLo 5 ⌈q * ((5 : ℚ) - 1)⌉ j : ℤ) =
                max 0 ((j : ℤ) - ⌈q * ((5 : ℚ) - 1)⌉) ∧
              (bandHi 5 ⌈q * ((5 : ℚ) - 1)⌉ j : ℤ) =
                min (5 : ℤ) ((j : ℤ) + ⌈q * ((5 : ℚ) - 1)⌉ + 1)) ∧
      (List.range 5).map (bandLo 5 2) = [0, 0, 0, 1, 2] ∧
      (List.range 5).map (bandHi 5 2) = [3, 4, 5, 5, 5]) :=
  ⟨by omega, c6_theorem 5 (by omega)⟩

/-- Claim C10: the resolved window depends on the numeric type of the
argument: the float `1.0` resolves to `n - 1` and yields the full grid
(`lo = 0`, `hi = n` everywhere), while the integer `1` resolves to `1`
and yields the width-1 band. -/
theorem c10_theorem (n : ℕ) (hn : 2 ≤ n) :
    resolveWindow n (WindowSize.wFloat 1) = Except.ok ((n : ℤ) - 1) ∧
    resolveWindow n (WindowSize.wInt 1) = Except.ok 1 ∧
    (∀ j, j < n → bandLo n ((n : ℤ) - 1) j = 0 ∧ bandHi n ((n : ℤ) - 1) j = n) ∧
    (∀ j, j < n → (bandLo n 1 j : ℤ) = max 0 ((j : ℤ) - 1) ∧
      (bandHi n 1 j : ℤ) = min (n : ℤ) ((j : ℤ) + 2)) := by
  refine ⟨?_, ?_, ?_, ?_⟩
  · rw [resolveWindow, if_pos ⟨by norm_num, le_rfl⟩]
    congr 1
    rw [one_mul, show ((n : ℚ) - 1) = (((n : ℤ) - 1 : ℤ) : ℚ) by push_cast; ring,
      Int.ceil_intCast]
  · rw [resolveWindow, if_pos ⟨by norm_num, by omega⟩]
  · intro j hj
    constructor
    · simp only [bandLo]
      omega
    · simp only [bandHi]
      omega
  · intro j hj
    constructor
    · simp only [bandLo]
      omega
    · simp only [bandHi]
      omega

theorem c10_witness :
    2 ≤ 5 ∧
      (resolveWindow 5 (WindowSize.wFloat 1) = Except.ok ((5 : ℤ) - 1) ∧
      resolveWindow 5 (WindowSize.wInt 1) = Except.ok 1 ∧
      (∀ j, j < 5 → bandLo 5 ((5 : ℤ) - 1) j = 0 ∧ bandHi 5 ((5 : ℤ) - 1) j = 5) ∧
      (∀ j, j < 5 → (bandLo 5 1 j : ℤ) = max 0 ((j : ℤ) - 1) ∧
        (bandHi 5 1 j : ℤ) = min (5 : ℤ) ((j : ℤ) + 2))) :=
  ⟨by omega, c10_theorem 5 (by omega)⟩

/-- `np.round` to an integer: round half to even. -/
def rhe (q : ℚ) : ℤ :=
  if q - ⌊q⌋ < 1 / 2 then ⌊q⌋
  else if 1 / 2 < q - ⌊q⌋ then ⌊q⌋ + 1
  else if Even ⌊q⌋ then ⌊q⌋ else ⌊q⌋ + 1

/-- `np.round(_, 2)`: round half to even at two decimal places. -/
def round2 (q : ℚ) : ℚ := (rhe (q * 100) : ℚ) / 100

theorem rhe_intCast (k : ℤ) : rhe (k : ℚ) = k := by
  rw [rhe]
  rw [if_pos]
  · exact Int.floor_intCast k
  · rw [Int.floor_intCast]
    norm_num

theorem round2_natCast (j : ℕ) : round2 ((j : ℚ)) = (j : ℚ) := by
  rw [round2,
    show ((j : ℚ) * 100) = (((j : ℕ) * 100 : ℤ) : ℚ) by push_cast; ring,
    rhe_intCast]
  push_cast
  norm_num

/-- Lower bounds of `itakura_parallelogram`: the two linear bounds,
rounded to 2 decimals, maximised, then `np.ceil`. -/
def itakuraLow (n : ℕ) (s : ℚ) (j : ℕ) : ℤ :=
  ⌈max (round2 (s⁻¹ * (j : ℚ)))
    (round2 ((1 - s) * ((n : ℚ) - 1) + s * (j : ℚ)))⌉

/-- Upper bounds of `itakura_parallelogram`: the two complementary
bounds, rounded to 2 decimals, minimised, then `np.floor(_ + 1)`. -/
def itakuraHigh (n : ℕ) (s : ℚ) (j : ℕ) : ℤ :=
  ⌊min (round2 (s * (j : ℚ)))
    (round2 ((1 - s⁻¹) * ((n : ℚ) - 1) + s⁻¹ * (j : ℚ))) + 1⌋

/-- `itakura_parallelogram` (the `astype('int64')` cast is exact since
ceil/floor already produce integral values). -/
def itakura_parallelogram (n : ℕ) (s : ℚ) :
    Except String ((ℕ → ℤ) × (ℕ → ℤ)) :=
  if n < 2 then Except.error "n_timestamps must be >= 2"
  else if s < 1 then Except.error "max_slope must be >= 1"
  else Except.ok (itakuraLow n s, itakuraHigh n s)

/-- Claim C7: with `max_slope = 1` the Itakura parallelogram degenerates
to exactly the diagonal: `lo[j] = j`, `hi[j] = j + 1`. -/
theorem c7_theorem (n : ℕ) (hn : 2 ≤ n) :
    itakura_parallelogram n 1 = Except.ok (itakuraLow n 1, itakuraHigh n 1) ∧
    ∀ j, j < n → itakuraLow n 1 j = (j : ℤ) ∧ itakuraHigh n 1 j = (j : ℤ) + 1 := by
  constructor
  · rw [itakura_parallelogram, if_neg (by omega), if_neg (by norm_num)]
  · intro j hj
    have harg1 : (1 : ℚ)⁻¹ * (j : ℚ) = (j : ℚ) := by norm_num
    have harg2 : ((1 : ℚ) - 1) * ((n : ℚ) - 1) + 1 * (j : ℚ) = (j : ℚ) := by ring
    constructor
    · rw [itakuraLow, harg1, harg2, round2_natCast, max_self, Int.ceil_natCast]
    · rw [itakuraHigh, one_mul, harg1.symm]
      rw [harg1, show ((1 : ℚ) - 1⁻¹) * ((n : ℚ) - 1) + 1⁻¹ * (j : ℚ) = (j : ℚ) by
        norm_num, round2_natCast, min_self,
        show ((j : ℚ) + 1) = (((j : ℤ) + 1 : ℤ) : ℚ) by push_cast; ring,
        Int.floor_intCast]

theorem c7_witness :
    2 ≤ 5 ∧
      (itakura_parallelogram 5 1 = Except.ok (itakuraLow 5 1, itakuraHigh 5 1) ∧
      ∀ j, j < 5 → itakuraLow 5 1 j = (j : ℤ) ∧ itakuraHigh 5 1 j = (j : ℤ) + 1) :=
  ⟨by omega, c7_theorem 5 (by omega)⟩

/-- `np.clip(_, 0, m - 1)` on a (possibly negative) shifted cell. -/
def clipCell (m : ℕ) (c : ℤ × ℤ) : ℕ × ℕ :=
  ((max 0 (min ((m : ℤ) - 1) c.1)).toNat,
    (max 0 (min ((m : ℤ) - 1) c.2)).toNat)

/-- One of the four shifted copies of the path built by
`np.repeat(path, radius, axis=1)` followed by the sliced
`+= i` / `-= i` loop: the copy at column `pos` (of `L * radius`
columns, `L` the path length) is cell `path[pos / radius]` shifted by
`pos / L + 1` — `np.repeat` groups the copies per *cell* while the
slices `path_length * (i - 1) : path_length * i` group the shift
amounts per *block*, so not every cell receives every shift.
`dir`: 0 = up (`row + s`), 1 = down (`row - s`), 2 = left
(`col - s`), 3 = right (`col + s`). -/
def shiftedCopies (path : List (ℕ × ℕ)) (ρ : ℕ) (dir : ℕ) : List (ℤ × ℤ) :=
  (List.range (path.length * ρ)).map (fun pos =>
    let c := path.getD (pos / ρ) (0, 0)
    let s : ℤ := ((pos / path.length : ℕ) : ℤ) + 1
    if dir = 0 then ((c.1 : ℤ) + s, (c.2 : ℤ))
    else if dir = 1 then ((c.1 : ℤ) - s, (c.2 : ℤ))
    else if dir = 2 then ((c.1 : ℤ), (c.2 : ℤ) - s)
    else ((c.1 : ℤ), (c.2 : ℤ) + s))

/-- `np.clip(np.c_[path, path_up, path_down, path_left, path_right],
0, n_timestamps_reduced - 1)`. -/
def pathRadius (m : ℕ) (path : List (ℕ × ℕ)) (ρ : ℕ) : List (ℕ × ℕ) :=
  (path.map (fun c => ((c.1 : ℤ), (c.2 : ℤ))) ++ shiftedCopies path ρ 0 ++
      shiftedCopies path ρ 1 ++ shiftedCopies path ρ 2 ++
      shiftedCopies path ρ 3).map (clipCell m)

/-- `path_radius[1, path_radius[0] == i]`. -/
def bucket (cells : List (ℕ × ℕ)) (i : ℕ) : List ℕ :=
  (cells.filter (fun c => c.1 == i)).map (fun c => c.2)

def lmin : List ℕ → Option ℕ
  | [] => none
  | a :: l => some (l.foldl min a)

def lmax : List ℕ → Option ℕ
  | [] => none
  | a :: l => some (l.foldl max a)

/-- `_multiscale_region`: per coarse row `i`, the range
`[min * r, (max + 1) * r)` over the bucket of column values, replicated
over each row's `r` full-resolution columns and clipped to `[0, n]`.
Returns `none` when some bucket is empty (`np.min` of an empty array
raises in the code; unreachable for the monotone paths produced by
`_return_path`). -/
def multiscale_region (n r m : ℕ) (path : List (ℕ × ℕ)) (ρ : ℕ) :
    Option Region :=
  let cells := pathRadius m path ρ
  if (List.range m).all (fun i => !(bucket cells i).isEmpty) then
    some
      (fun c => min n (((lmin (bucket cells (c / r))).getD 0) * r),
        fun c => min n ((((lmax (bucket cells (c / r))).getD 0) + 1) * r))
  else none

/-- Modelled from the claim (C2), for comparison with the code's
`multiscale_region`: the variants are *every* coarse path cell shifted
by *every* `s ∈ 1..ρ` in each of the four directions. -/
def claimedVariants (path : List (ℕ × ℕ)) (ρ : ℕ) : List (ℤ × ℤ) :=
  path.flatMap (fun c =>
    (List.range ρ).flatMap (fun s0 =>
      let s : ℤ := (s0 : ℤ) + 1
      [((c.1 : ℤ) + s, (c.2 : ℤ)), ((c.1 : ℤ) - s, (c.2 : ℤ)),
        ((c.1 : ℤ), (c.2 : ℤ) - s), ((c.1 : ℤ), (c.2 : ℤ) + s)]))

/-- Modelled from the claim (C2): same bucketing, scaling and clipping
as the code, but over the claimed variant set. -/
def multiscale_region_claimed (n r m : ℕ) (path : List (ℕ × ℕ)) (ρ : ℕ) :
    Option Region :=
  let cells :=
    (path.map (fun c => ((c.1 : ℤ), (c.2 : ℤ))) ++ claimedVariants path ρ).map
      (clipCell m)
  if (List.range m).all (fun i => !(bucket cells i).isEmpty) then
    some
      (fun c => min n (((lmin (bucket cells (c / r))).getD 0) * r),
        fun c => min n ((((lmax (bucket cells (c / r))).getD 0) + 1) * r))
  else none

/-- The coarse path of the C2 failing input: a monotone coarse path
from `(0,0)` to the coarse corner `(3,3)`. -/
def msPath : List (ℕ × ℕ) := [(0, 0), (1, 1), (2, 1), (3, 2), (3, 3)]

/-- C2 fails on the code: with `n = 8`, `r = 2`, `m = 4`, `ρ = 2`, the
code's region has `hi = [4,4,8,8,8,8,8,8]` while the claimed dilation
gives `hi = [6,6,8,8,8,8,8,8]` (cell `(0,0)` never receives its shift-2
right variant `(0,2)` because `np.repeat` groups copies per cell while
the shift slices assume `np.tile` grouping). -/
theorem c2_counterexample :
    ((multiscale_region 8 2 4 msPath 2).map (fun R => (List.range 8).map R.2) =
        some [4, 4, 8, 8, 8, 8, 8, 8]) ∧
      ((multiscale_region_claimed 8 2 4 msPath 2).map
          (fun R => (List.range 8).map R.2) =
        some [6, 6, 8, 8, 8, 8, 8, 8]) ∧
      ((multiscale_region 8 2 4 msPath 2).map (fun R => (List.range 8).map R.1) =
        some [0, 0, 0, 0, 0, 0, 0, 0]) ∧
      ((multiscale_region_claimed 8 2 4 msPath 2).map
          (fun R => (List.range 8).map R.1) =
        some [0, 0, 0, 0, 0, 0, 0, 0]) := by
  refine ⟨?_, ?_, ?_, ?_⟩ <;> decide

/-- Final DTW distance, represented symbolically because `sqrt` is
irrational over `ℚ`: `sqrted v` denotes `√v`, `plain v` denotes `v`. -/
inductive FinalDist where
  | plain (v : WithTop ℚ)
  | sqrted (v : WithTop ℚ)
deriving DecidableEq

/-- `dtw_dist = acc_cost_mat[-1, -1]; if dist == 'square': dtw_dist =
sqrt(dtw_dist)` — for `'absolute'` and any custom callable the raw
value is returned. -/
def sqrtIfSquare : Dist → WithTop ℚ → FinalDist
  | Dist.square, v => FinalDist.sqrted v
  | Dist.absolute, v => FinalDist.plain v
  | Dist.custom _, v => FinalDist.plain v

/-- Order of the represented distances (`√` is monotone on `[0, ∞]`).
Two results computed with one and the same distance function always use
the same constructor, so only the first two cases arise below. -/
def FinalDist.le : FinalDist → FinalDist → Prop
  | FinalDist.plain a, FinalDist.plain b => a ≤ b
  | FinalDist.sqrted a, FinalDist.sqrted b => a ≤ b
  | _, _ => False

/-- The full result of a variant; the code returns the last three
components only when the corresponding `return_*` flag is set, which is
presentational. -/
structure DtwOut where
  dist : FinalDist
  cost_mat : Mat
  acc_cost_mat : Mat
  path : List (ℕ × ℕ)

/-- The five lines every variant shares verbatim: cost matrix with the
variant's region, accumulated cost matrix (the region is *not*
forwarded to the accumulation), distance at `[-1, -1]` square-rooted iff
the distance is `'square'`, and the backtracked path. -/
def dtw_pipeline (n : ℕ) (x y : ℕ → ℚ) (d : Dist) (reg : Option Region) :
    DtwOut :=
  let cm := cost_matrix x y d reg
  let ac := accumulated_cost_matrix n cm none
  { dist := sqrtIfSquare d (ac (n - 1) (n - 1))
    cost_mat := cm
    acc_cost_mat := ac
    path := return_path n ac }

def dtw_classic (n : ℕ) (x y : ℕ → ℚ) (d : Dist) : DtwOut :=
  dtw_pipeline n x y d none

def dtw_region (n : ℕ) (x y : ℕ → ℚ) (d : Dist) (reg : Option Region) :
    DtwOut :=
  dtw_pipeline n x y d reg

def dtw_sakoechiba (n : ℕ) (x y : ℕ → ℚ) (d : Dist) (ws : WindowSize) :
    Except String DtwOut :=
  match sakoe_chiba_band n ws with
  | Except.error e => Except.error e
  | Except.ok r => Except.ok (dtw_pipeline n x y d (some r))

def dtw_itakura (n : ℕ) (x y : ℕ → ℚ) (d : Dist) (s : ℚ) :
    Except String DtwOut :=
  match itakura_parallelogram n s with
  | Except.error e => Except.error e
  | Except.ok r =>
      Except.ok (dtw_pipeline n x y d
        (some (fun j => (r.1 j).toNat, fun j => (r.2 j).toNat)))

/-- `ceil(n / res)`: length of the block-averaged sequences. -/
def reducedLen (n res : ℕ) : ℕ := (n + res - 1) / res

/-- Tail padding by the last element (`np.append(x, np.repeat(x[-1],
resolution - remainder))`), as seen through block indexing. -/
def padSeq (x : ℕ → ℚ) (n : ℕ) : ℕ → ℚ :=
  fun k => if k < n then x k else x (n - 1)

def blockSum (f : ℕ → ℚ) (start : ℕ) : ℕ → ℚ
  | 0 => 0
  | k + 1 => blockSum f start k + f (start + k)

/-- `x_padded.reshape(-1, resolution).mean(axis=1)`. -/
def reduceSeq (x : ℕ → ℚ) (n res : ℕ) : ℕ → ℚ :=
  fun b => blockSum (padSeq x n) (b * res) res / (res : ℚ)

def dtw_multiscale (n : ℕ) (x y : ℕ → ℚ) (d : Dist) (res ρ : ℕ) :
    Except String DtwOut :=
  if res = 0 then Except.error "resolution must be a positive integer"
  else if res = 1 then Except.ok (dtw_pipeline n x y d none)
  else
    let m := reducedLen n res
    let acr :=
      accumulated_cost_matrix m
        (cost_matrix (reduceSeq x n res) (reduceSeq y n res) d none) none
    match multiscale_region n res m (return_path m acr) ρ with
    | none => Except.error "empty row bucket"
    | some reg => Except.ok (dtw_pipeline n x y d (some reg))

/-- `ceil(log2(n / m))` computed exactly: the least `k` with
`n ≤ m * 2^k` (the code computes it with float `log2`). -/
def ceilLog2 (n m : ℕ) : ℕ :=
  if hm : m = 0 then 0
  else if h : n ≤ m then 0
  else ceilLog2 n (2 * m) + 1
termination_by n - m
decreasing_by omega

/-- `ceil((2 * n) / res)`: the full-resolution size passed to
`_multiscale_region` inside `dtw_fast` (the size of the next finer
level). -/
def nextLen (n res : ℕ) : ℕ := (2 * n + res - 1) / res

/-- The coarse-to-fine loop of `dtw_fast` (`for i in range(n_recursions)`),
threading the region of each level into the next; iteration `i` works at
`resolution = 2^(n_recursions - i)`.  The outer `none` records the
unreachable empty-bucket failure of `_multiscale_region`. -/
def fastLoop (n : ℕ) (x y : ℕ → ℚ) (d : Dist) (ρ nrec : ℕ) :
    ℕ → Option (Option Region)
  | 0 => some none
  | i + 1 =>
      match fastLoop n x y d ρ nrec i with
      | none => none
      | some reg =>
          let res := 2 ^ (nrec - i)
          let m := reducedLen n res
          let acr :=
            accumulated_cost_matrix m
              (cost_matrix (reduceSeq x n res) (reduceSeq y n res) d reg) none
          match multiscale_region (nextLen n res) 2 m (return_path m acr) ρ with
          | none => none
          | some r => some (some r)

def dtw_fast (n : ℕ) (x y : ℕ → ℚ) (d : Dist) (ρ : ℕ) :
    Except String DtwOut :=
  if ρ + 2 < n then
    match fastLoop n x y d ρ (ceilLog2 n (ρ + 2)) (ceilLog2 n (ρ + 2)) with
    | none => Except.error "empty row bucket"
    | some reg => Except.ok (dtw_pipeline n x y d reg)
  else Except.ok (dtw_pipeline n x y d none)

/-- The `method` argument of the `dtw` dispatcher, with each method's
options. -/
inductive Method where
  | classic
  | sakoechiba (ws : WindowSize)
  | itakura (s : ℚ)
  | multiscale (res ρ : ℕ)
  | fast (ρ : ℕ)

/-- The `dtw` dispatcher. -/
def dtw (n : ℕ) (x y : ℕ → ℚ) (d : Dist) : Method → Except String DtwOut
  | Method.classic => Except.ok (dtw_classic n x y d)
  | Method.sakoechiba ws => dtw_sakoechiba n x y d ws
  | Method.itakura s => dtw_itakura n x y d s
  | Method.multiscale res ρ => dtw_multiscale n x y d res ρ
  | Method.fast ρ => dtw_fast n x y d ρ

/-- C5's property of one result: the returned distance is the
accumulated-cost entry at `(n-1, n-1)`, square-rooted exactly when the
distance argument is `'square'`; for `'absolute'` and custom callables
the raw value. -/
def distFromAcc (n : ℕ) (d : Dist) (out : DtwOut) : Prop :=
  out.dist =
    match d with
    | Dist.square => FinalDist.sqrted (out.acc_cost_mat (n - 1) (n - 1))
    | _ => FinalDist.plain (out.acc_cost_mat (n - 1) (n - 1))

/-- Claim C5: every method variant of the dispatcher, and `dtw_region`,
returns the accumulated-cost entry at `(n-1, n-1)`, square-rooted iff
the distance is `'square'` (raw for `'absolute'` and custom). -/
theorem c5_theorem (n : ℕ) (x y : ℕ → ℚ) (d : Dist) :
    (∀ method out, dtw n x y d method = Except.ok out → distFromAcc n d out) ∧
    (∀ reg, distFromAcc n d (dtw_region n x y d reg)) := by
  have hpipe : ∀ reg, distFromAcc n d (dtw_pipeline n x y d reg) := by
    intro reg
    cases d <;> rfl
  constructor
  · intro method out h
    cases method with
    | classic =>
        simp only [dtw] at h
        injection h with h2
        rw [← h2]
        exact hpipe none
    | sakoechiba ws =>
        simp only [dtw, dtw_sakoechiba] at h
        split at h
        · simp at h
        · injection h with h2
          rw [← h2]
          exact hpipe _
    | itakura s =>
        simp only [dtw, dtw_itakura] at h
        split at h
        · simp at h
        · injection h with h2
          rw [← h2]
          exact hpipe _
    | multiscale res ρ =>
        simp only [dtw, dtw_multiscale] at h
        split at h
        · simp at h
        · split at h
          · injection h with h2
            rw [← h2]
            exact hpipe none
          · split at h
            · simp at h
            · injection h with h2
              rw [← h2]
              exact hpipe _
    | fast ρ =>
        simp only [dtw, dtw_fast] at h
        split at h
        · split at h
          · simp at h
          · injection h with h2
            rw [← h2]
            exact hpipe _
        · injection h with h2
          rw [← h2]
          exact hpipe none
  · intro reg
    exact hpipe reg

theorem c5_witness :
    dtw 2 (fun _ => (0 : ℚ)) (fun _ => (1 : ℚ)) Dist.absolute Method.classic =
        Except.ok (dtw_classic 2 (fun _ => (0 : ℚ)) (fun _ => (1 : ℚ))
          Dist.absolute) ∧
      distFromAcc 2 Dist.absolute
        (dtw_classic 2 (fun _ => (0 : ℚ)) (fun _ => (1 : ℚ)) Dist.absolute) :=
  ⟨rfl, (c5_theorem 2 (fun _ => (0 : ℚ)) (fun _ => (1 : ℚ))
    Dist.absolute).1 Method.classic _ rfl⟩

/-- Claim C9: when `n ≤ radius + 2` the fast variant performs no
recursion, keeps the region `None`, and returns exactly the classic
result (distance, cost matrix, accumulated cost matrix and path). -/
theorem c9_theorem (n : ℕ) (x y : ℕ → ℚ) (d : Dist) (ρ : ℕ)
    (h : n ≤ ρ + 2) :
    dtw_fast n x y d ρ = Except.ok (dtw_classic n x y d) := by
  rw [dtw_fast, if_neg (by omega)]
  rfl

theorem c9_witness :
    3 ≤ 1 + 2 ∧
      dtw_fast 3 (fun k => (k : ℚ)) (fun _ => (0 : ℚ)) Dist.square 1 =
        Except.ok (dtw_classic 3 (fun k => (k : ℚ)) (fun _ => (0 : ℚ))
          Dist.square) :=
  ⟨by omega,
    c9_theorem 3 (fun k => (k : ℚ)) (fun _ => (0 : ℚ)) Dist.square 1 (by omega)⟩

/-- Claim C3: for a region that is a strict subset of the grid, the
region-constrained distance is at least the classic distance.  All
variants mask the cost matrix with the region (masked entries `+∞`) and
then run the unconstrained accumulation, so this is monotonicity of the
DTW recurrence in the cost matrix (the square root applied to both sides
for `'square'` is monotone, preserved by `FinalDist.le`). -/
theorem c3_theorem (n : ℕ) (x y : ℕ → ℚ) (d : Dist) (lo hi : ℕ → ℕ)
    (hn : 2 ≤ n) (_hb : ∀ j, j < n → lo j ≤ hi j ∧ hi j ≤ n)
    (_hstrict : ∃ j, j < n ∧ (0 < lo j ∨ hi j < n))
    (hd : d = Dist.square ∨ d = Dist.absolute) :
    FinalDist.le (dtw_classic n x y d).dist
      (dtw_region n x y d (some (lo, hi))).dist := by
  have hcost : ∀ i j, cost_matrix x y d none i j ≤
      cost_matrix x y d (some (lo, hi)) i j := by
    intro i j
    by_cases hin : lo j ≤ i ∧ i < hi j
    · simp [cost_matrix, cost_matrix_no_region, cost_matrix_region, hin]
    · simp only [cost_matrix, cost_matrix_no_region, cost_matrix_region,
        if_neg hin]
      exact le_top
  have hraw :
      accumulated_cost_matrix n (cost_matrix x y d none) none (n - 1) (n - 1) ≤
        accumulated_cost_matrix n (cost_matrix x y d (some (lo, hi))) none
          (n - 1) (n - 1) := by
    rw [accumulated_none_eq n _ (n - 1) (n - 1) (by omega) (by omega),
      accumulated_none_eq n _ (n - 1) (n - 1) (by omega) (by omega)]
    exact accNR_mono _ _ hcost (n - 1) (n - 1)
  rcases hd with rfl | rfl
  · exact hraw
  · exact hraw

theorem c3_witness :
    2 ≤ 2 ∧ (∀ j, j < 2 → (0 : ℕ) ≤ 1 ∧ 1 ≤ 2) ∧
      (0 < 2 ∨ (1 : ℕ) < 2) ∧
      FinalDist.le
        (dtw_classic 2 (fun _ => (0 : ℚ)) (fun _ => (1 : ℚ))
          Dist.absolute).dist
        (dtw_region 2 (fun _ => (0 : ℚ)) (fun _ => (1 : ℚ)) Dist.absolute
          (some (fun _ => 0, fun _ => 1))).dist :=
  ⟨le_rfl, fun j _ => ⟨by omega, by omega⟩, Or.inr (by omega),
    c3_theorem 2 (fun _ => (0 : ℚ)) (fun _ => (1 : ℚ)) Dist.absolute
      (fun _ => 0) (fun _ => 1) le_rfl
      (fun j _ => ⟨by norm_num, by norm_num⟩)
      ⟨1, by norm_num, Or.inr (by norm_num)⟩ (Or.inr rfl)⟩

/-- Claim C8: `dtw_classic` is symmetric in its two sequences for the
two built-in (symmetric) distances. -/
theorem c8_theorem (n : ℕ) (x y : ℕ → ℚ) (d : Dist) (hn : 2 ≤ n)
    (hd : d = Dist.square ∨ d = Dist.absolute) :
    (dtw_classic n x y d).dist = (dtw_classic n y x d).dist := by
  have hsym : cost_matrix x y d none =
      fun a b => cost_matrix y x d none b a := by
    funext i j
    rcases hd with rfl | rfl
    · simp only [cost_matrix, cost_matrix_no_region, applyDist]
      rw [show x i - y j = -(y j - x i) by ring, neg_sq]
    · simp only [cost_matrix, cost_matrix_no_region, applyDist]
      rw [abs_sub_comm]
  have hraw :
      accumulated_cost_matrix n (cost_matrix x y d none) none (n - 1) (n - 1) =
        accumulated_cost_matrix n (cost_matrix y x d none) none
          (n - 1) (n - 1) := by
    rw [accumulated_none_eq n _ (n - 1) (n - 1) (by omega) (by omega),
      accumulated_none_eq n _ (n - 1) (n - 1) (by omega) (by omega)]
    rw [hsym, accNR_transpose]
  exact congrArg (sqrtIfSquare d) hraw

theorem c8_witness :
    2 ≤ 2 ∧
      (dtw_classic 2 (fun _ => (0 : ℚ)) (fun k => (k : ℚ))
          Dist.absolute).dist =
        (dtw_classic 2 (fun k => (k : ℚ)) (fun _ => (0 : ℚ))
          Dist.absolute).dist :=
  ⟨le_rfl,
    c8_theorem 2 (fun _ => (0 : ℚ)) (fun k => (k : ℚ)) Dist.absolute le_rfl
      (Or.inr rfl)⟩

end PytsDtw
